import Mathlib

/- Shallow embedding of the xpath-like query engine of BaseExtension.py
   (z_sort / z_iter document ordering and the find / recurse evaluator). -/

namespace Ink

/-- A document node: lxml element modelled by a unique identifier, the Python
class name of the element (`type(obj).__name__`), and its ordered children. -/
inductive Node where
  | mk (ident : Nat) (kind : String) (children : List Node)

def Node.kind : Node → String
  | .mk _ k _ => k

def Node.children : Node → List Node
  | .mk _ _ ch => ch

mutual
def nodeBEq : Node → Node → Bool
  | .mk i k ch, .mk i' k' ch' => i == i' && k == k' && nodeListBEq ch ch'

def nodeListBEq : List Node → List Node → Bool
  | [], [] => true
  | o :: r, o' :: r' => nodeBEq o o' && nodeListBEq r r'
  | _, _ => false
end

mutual
theorem nodeBEq_rfl : ∀ a : Node, nodeBEq a a = true
  | .mk i k ch => by
    simp only [nodeBEq, Bool.and_eq_true, beq_self_eq_true, true_and]
    exact nodeListBEq_rfl ch

theorem nodeListBEq_rfl : ∀ l : List Node, nodeListBEq l l = true
  | [] => rfl
  | o :: r => by
    simp only [nodeListBEq, Bool.and_eq_true]
    exact ⟨nodeBEq_rfl o, nodeListBEq_rfl r⟩
end

mutual
theorem nodeBEq_eq : ∀ a b : Node, nodeBEq a b = true → a = b
  | .mk i k ch, .mk i' k' ch' => by
    simp only [nodeBEq, Bool.and_eq_true, beq_iff_eq, and_imp]
    intro h1 h2 h3
    subst h1; subst h2
    exact congrArg (Node.mk i k) (nodeListBEq_eq ch ch' h3)

theorem nodeListBEq_eq : ∀ l l' : List Node, nodeListBEq l l' = true → l = l'
  | [], [], _ => rfl
  | o :: r, o' :: r', h => by
    simp only [nodeListBEq, Bool.and_eq_true] at h
    rw [nodeBEq_eq o o' h.1, nodeListBEq_eq r r' h.2]
end

instance : DecidableEq Node := fun a b =>
  if h : nodeBEq a b = true then .isTrue (nodeBEq_eq a b h)
  else .isFalse (fun he => h (he ▸ nodeBEq_rfl a))

mutual
/-- Preorder (document order) traversal of an element, mirroring lxml
`element.iter()`: the element itself, then each child's subtree. -/
def iter : Node → List Node
  | .mk i k ch => .mk i k ch :: iterList ch

def iterList : List Node → List Node
  | [] => []
  | o :: rest => iter o ++ iterList rest
end

mutual
/-- Height of a node: 1 for a leaf. -/
def Node.height : Node → Nat
  | .mk _ _ ch => 1 + heightList ch

def heightList : List Node → Nat
  | [] => 0
  | o :: rest => max o.height (heightList rest)
end

/-- Loop of `z_iter`: walk `tree` (the document in preorder), yield elements
that are members of `alist`, decrement the countdown on each yield and stop
once it reaches zero. -/
def z_iter_aux (alist : List Node) : List Node → Int → List Node
  | [], _ => []
  | e :: rest, count =>
    if e ∈ alist then
      if count - 1 = 0 then [e] else e :: z_iter_aux alist rest (count - 1)
    else z_iter_aux alist rest count

/-- Function `z_iter(alist)`: elements of `alist` in document order, scanning
`self.document.getroot().iter()` with the early-exit countdown. -/
def z_iter (root : Node) (alist : List Node) : List Node :=
  z_iter_aux alist (iter root) alist.length

/-- Function `z_sort(alist)`: list of `z_iter(alist)`. -/
def z_sort (root : Node) (alist : List Node) : List Node :=
  z_iter root alist

/-- The `tag_dict` alias table of `find`. -/
def tag_dict : List (String × String) :=
  [("l", "Layer"), ("g", "Group"), ("p", "PathElement"), ("img", "Image")]

/-- Predicate `is_meta`: bookkeeping node kinds excluded from a top-level candidate set. -/
def is_meta (o : Node) : Bool :=
  o.kind == "Defs" || o.kind == "NamedView" || o.kind == "Metadata" ||
    o.kind == "StyleElement"

/-- Predicate `is_iterable`: container node kinds that `recurse` descends into. -/
def is_iterable (o : Node) : Bool :=
  o.kind == "Group" || o.kind == "Layer"

/- Step parsing.  `recurse` applies the regular expression
`(//?)(\w+|\*)(?:\[(-?\d+(?::-?(?:\d+)?){0,2})\])?(.*)` to the current xpath
string and keeps the first match (`re.findall(...)[0]`); no match is an
uncaught IndexError.  The functions below mirror that scan over the
character list of the string. -/

def isWordChar (c : Char) : Bool :=
  c.isAlphanum || c == '_'

/-- Maximal run of decimal digits. -/
def takeDigits (l : List Char) : List Char × List Char :=
  (l.takeWhile Char.isDigit, l.dropWhile Char.isDigit)

/-- Up to `n` repetitions of `:-?(?:\d+)?` inside the bracket group. -/
def parseReps : List Char → Nat → List Char × List Char
  | l, 0 => ([], l)
  | l, n + 1 =>
    match l with
    | ':' :: r =>
      let (neg, r1) := match r with
        | '-' :: rr => (['-'], rr)
        | _ => (([] : List Char), r)
      let (ds, r2) := takeDigits r1
      let (more, r3) := parseReps r2 n
      (':' :: (neg ++ ds ++ more), r3)
    | _ => ([], l)

/-- The optional bracket group `\[(-?\d+(?::-?(?:\d+)?){0,2})\]`: on success
returns the group contents and the remaining characters. -/
def tryBracket : List Char → Option (List Char × List Char)
  | '[' :: r =>
    let (neg, r1) := match r with
      | '-' :: rr => (['-'], rr)
      | _ => (([] : List Char), r)
    let (ds, r2) := takeDigits r1
    if ds.isEmpty then none
    else
      let (content, r3) := parseReps r2 2
      match r3 with
      | ']' :: r4 => some (neg ++ ds ++ content, r4)
      | _ => none
  | _ => none

/-- The optional bracket group; a failed group does not participate and
contributes the empty string, as `re.findall` reports it. -/
def parseBracket (l : List Char) : List Char × List Char :=
  match tryBracket l with
  | some (n, rest) => (n, rest)
  | none => ([], l)

/-- The type selector `\w+|\*`. -/
def parseType (l : List Char) : Option (List Char × List Char) :=
  match l with
  | '*' :: r => some (['*'], r)
  | _ =>
    let ds := l.takeWhile isWordChar
    if ds.isEmpty then none else some (ds, l.dropWhile isWordChar)

/-- One anchored attempt of the step pattern: axis `//?` (greedy), type,
optional bracket group, then `(.*)` which runs to the end of the line.
Returns (axis is Descendant, type, bracket contents, remaining xpath). -/
def matchAt (l : List Char) : Option (Bool × String × String × List Char) :=
  match l with
  | '/' :: rest =>
    let (desc, afterAxis) := match rest with
      | '/' :: r2 => (true, r2)
      | _ => (false, rest)
    match parseType afterAxis with
    | none => none
    | some (t, afterType) =>
      let (nStr, afterN) := parseBracket afterType
      some (desc, String.mk t, String.mk nStr, afterN.takeWhile (· ≠ '\n'))
  | _ => none

/-- Leftmost match of the step pattern, as `re.findall` produces it. -/
def scanStep : List Char → Option (Bool × String × String × List Char)
  | [] => none
  | c :: cs =>
    match matchAt (c :: cs) with
    | some r => some r
    | none => scanStep cs

/-- Errors that abort a query, mirroring the uncaught Python exceptions. -/
inductive QErr where
  /-- IndexError: `re.findall(...)[0]` with no match of the step pattern. -/
  | grammarFail (s : List Char)
  /-- ValueError: `int` applied to a non-numeric piece such as `-`. -/
  | valueFail
  /-- KeyError: `tag_dict[this_type]` for a code not in the table. -/
  | unknownType (t : String)
  /-- AssertionError: `end must be specified (for now...)`. -/
  | sliceStopMissing
  /-- ValueError: slice step cannot be zero. -/
  | sliceStepZero
deriving DecidableEq

/-- The structured form of `this_n` after the conversion at the top of
`recurse`: an integer, or the optional-integer pieces of a slice. -/
inductive NBody where
  | int (i : Int)
  | parts (l : List (Option Int))
deriving DecidableEq

/-- Numeric value of a digit string. -/
def digitsVal (l : List Char) : Nat :=
  l.foldl (fun n c => 10 * n + (c.toNat - '0'.toNat)) 0

/-- Function `int(s)` for the pieces the bracket regex can produce. -/
def pyInt : List Char → Option Int
  | '-' :: rest =>
    if rest.isEmpty || !rest.all Char.isDigit then none
    else some (-(digitsVal rest : Int))
  | l =>
    if l.isEmpty || !l.all Char.isDigit then none
    else some ((digitsVal l : Int))

/-- Python `s.split(':')`. -/
def splitColon : List Char → List (List Char)
  | [] => [[]]
  | c :: rest =>
    let r := splitColon rest
    if c = ':' then [] :: r
    else
      match r with
      | [] => [[c]]
      | h :: t => (c :: h) :: t

/-- One piece of a slice: empty means `None`. -/
def convPiece (s : List Char) : Except QErr (Option Int) :=
  if s.isEmpty then .ok none
  else
    match pyInt s with
    | some i => .ok (some i)
    | none => .error .valueFail

/-- The `this_n` conversion: `''` becomes `None`, a string with `:` is split
into optional integers, anything else is one integer. -/
def convN (s : String) : Except QErr (Option NBody) :=
  if s.data = [] then .ok none
  else if s.data.contains ':' then
    match (splitColon s.data).mapM convPiece with
    | .ok parts => .ok (some (.parts parts))
    | .error e => .error e
  else
    match pyInt s.data with
    | some i => .ok (some (.int i))
    | none => .error .valueFail

/-- The per-object type test inside the candidate loop:
`this_type == '*' or type(obj).__name__ == tag_dict[this_type]`. -/
def matchOne (thisType : String) (o : Node) : Except QErr Bool :=
  if thisType = "*" then .ok true
  else
    match tag_dict.lookup thisType with
    | some name => .ok (o.kind == name)
    | none => .error (.unknownType thisType)

/-- The candidate loop of `recurse`: builds `matching_types` and, when the
axis is Descendant, also `to_recurse` (every candidate). -/
def partitionStep (thisType : String) (onlyImmediate : Bool) :
    List Node → Except QErr (List Node × List Node)
  | [] => .ok ([], [])
  | o :: rest =>
    match matchOne thisType o with
    | .error e => .error e
    | .ok b =>
      match partitionStep thisType onlyImmediate rest with
      | .error e => .error e
      | .ok (mt, tr) =>
        .ok ((if b then o :: mt else mt),
          (if onlyImmediate then tr else o :: tr))

/-- Index walk of Python extended slicing: collect elements at
`i, i + step, ...` while `i` is on the `stop` side. -/
def sliceGather (l : List Node) : Nat → Int → Int → Int → List Node
  | 0, _, _, _ => []
  | fuel + 1, i, stop, step =>
    if (0 < step ∧ i < stop) ∨ (step < 0 ∧ stop < i) then
      (match l.get? i.toNat with
       | some a => [a]
       | none => []) ++ sliceGather l fuel (i + step) stop step
    else []

/-- Python list slicing `l[start:stop:step]` with optional bounds, following
`slice.indices`: clamp the bounds to the list, then gather. -/
def pySlice (l : List Node) (startO stopO stepO : Option Int) : List Node :=
  let len : Int := l.length
  let step : Int := stepO.getD 1
  if step = 0 then []
  else
    let lower : Int := if 0 < step then 0 else -1
    let upper : Int := if 0 < step then len else len - 1
    let norm : Option Int → Int → Int := fun xO dflt =>
      match xO with
      | none => dflt
      | some x => if x < 0 then max (x + len) lower else min x upper
    let start := norm startO (if 0 < step then lower else upper)
    let stop := norm stopO (if 0 < step then upper else lower)
    sliceGather l (l.length + 1) start stop step

/-- The try block of `recurse`: apply `this_n` to `matching_types`.  A plain
index out of range is the caught IndexError: a warning plus an empty match.
A slice without a stop is the failed assertion; a zero step the uncaught
ValueError. -/
def applyIndex (thisN : Option NBody) (mt : List Node) :
    Except QErr (List Node × List String) :=
  match thisN with
  | none => .ok (mt, [])
  | some (.int i) =>
    if i < -(mt.length : Int) ∨ (mt.length : Int) ≤ i then
      .ok ([], ["WARN: list index out of range"])
    else
      match mt.get? (if i < 0 then i + (mt.length : Int) else i).toNat with
      | some x => .ok ([x], [])
      | none => .ok ([], ["WARN: list index out of range"])
  | some (.parts parts) =>
    match parts.get? 1 with
    | some (some _) =>
      if (parts.get? 2).join = some 0 then .error .sliceStepZero
      else
        .ok (pySlice mt (parts.headD none) ((parts.get? 1).join)
          ((parts.get? 2).join), [])
    | _ => .error .sliceStopMissing

instance {ε α : Type} [DecidableEq ε] [DecidableEq α] :
    DecidableEq (Except ε α) := fun x y =>
  match x, y with
  | .ok a, .ok b =>
    if h : a = b then .isTrue (by rw [h])
    else .isFalse (fun he => by cases he; exact h rfl)
  | .error e, .error f =>
    if h : e = f then .isTrue (by rw [h])
    else .isFalse (fun he => by cases he; exact h rfl)
  | .ok _, .error _ => .isFalse (fun he => by cases he)
  | .error _, .ok _ => .isFalse (fun he => by cases he)

/-- Result of one evaluation: matched nodes plus recorded warnings, or an
aborting error. -/
abbrev RRes : Type := Except QErr (List Node × List String)

/-- The recursion loop at the bottom of `recurse`: descend into each
container of `to_recurse` (non-containers contribute nothing) and
concatenate the results in order. -/
def recList (f : Node → Option RRes) : List Node → Option RRes
  | [] => some (.ok ([], []))
  | o :: rest =>
    if is_iterable o then
      match f o with
      | none => none
      | some (.error e) => some (.error e)
      | some (.ok (o1, w1)) =>
        match recList f rest with
        | none => none
        | some (.error e) => some (.error e)
        | some (.ok (o2, w2)) => some (.ok (o1 ++ o2, w1 ++ w2))
    else recList f rest

/-- One invocation of `recurse`, parameterised by the recursive call: z_sort
the candidates, parse the first step (`!desc` is `only_immediate`), convert
`this_n`, run the candidate loop, apply the index selector, then branch on
the axis: an Immediate last step emits its matches, an Immediate inner step
queues them for recursion with the rest of the xpath, a Descendant step
emits its matches and recurses into every candidate with the same xpath. -/
def recBody (root : Node) (recur : List Node → List Char → Option RRes)
    (objects : List Node) (cur : List Char) : Option RRes :=
  match scanStep cur with
  | none => some (.error (.grammarFail cur))
  | some (desc, thisType, nStr, nextXPath) =>
    match convN nStr with
    | .error e => some (.error e)
    | .ok thisN =>
      match partitionStep thisType (!desc) (z_sort root objects) with
      | .error e => some (.error e)
      | .ok (matchingTypes, toRecurse0) =>
        match applyIndex thisN matchingTypes with
        | .error e => some (.error e)
        | .ok (matched, warns) =>
          let output0 : List Node :=
            if !desc then (if nextXPath = [] then matched else []) else matched
          let toRecurse : List Node :=
            if !desc then
              (if nextXPath = [] then toRecurse0 else toRecurse0 ++ matched)
            else toRecurse0
          let path : List Char := if !desc then nextXPath else cur
          match recList (fun o => recur o.children path) toRecurse with
          | none => none
          | some (.error e) => some (.error e)
          | some (.ok (out2, warns2)) =>
            some (.ok (output0 ++ out2, warns ++ warns2))

/-- Evaluator `recurse` with a fuel bound on the recursion depth; `none` means the
fuel ran out before evaluation finished. -/
def recStep (root : Node) : Nat → List Node → List Char → Option RRes
  | 0, _, _ => none
  | fuel + 1, objects, cur => recBody root (recStep root fuel) objects cur

/-- The shapes of the `obj` argument of `find`: the svg document root, an
`ElementList` (a selection), or a plain list of elements. -/
inductive FindArg where
  | svgRoot
  | elemList (l : List Node)
  | plain (l : List Node)

/-- The candidate set `find` passes to `recurse`: children of the root or the
selection values, stripped of bookkeeping nodes; a plain list is passed as
is. -/
def candidatesOf (root : Node) : FindArg → List Node
  | .svgRoot => root.children.filter (fun c => !is_meta c)
  | .elemList l => l.filter (fun c => !is_meta c)
  | .plain l => l

/-- Evaluation of `find` with an explicit fuel bound. -/
def findFuel (root : Node) (arg : FindArg) (xpath : String) (fuel : Nat) :
    Option RRes :=
  recStep root fuel (candidatesOf root arg) xpath.data

/-- Function `find(obj, xpath)`: evaluation with enough fuel for the candidate set
(one level more than the tallest candidate subtree). -/
def find (root : Node) (arg : FindArg) (xpath : String) : Option RRes :=
  findFuel root arg xpath (1 + heightList (candidatesOf root arg))

/- Characterisation of the document-order reconciliation: the loop of
`z_iter` yields the document-preorder elements that belong to the input, cut
off after `len(alist)` yields. -/

theorem z_iter_aux_eq (alist : List Node) :
    ∀ (T : List Node) (count : Int),
      z_iter_aux alist T count =
        if 1 ≤ count then
          (T.filter (fun e => decide (e ∈ alist))).take count.toNat
        else T.filter (fun e => decide (e ∈ alist))
  | [], count => by
    simp only [z_iter_aux, List.filter_nil, List.take_nil]
    split <;> rfl
  | e :: T, count => by
    rw [z_iter_aux]
    by_cases hm : e ∈ alist
    · rw [if_pos hm, List.filter_cons_of_pos (by simpa using hm)]
      by_cases hc1 : count - 1 = 0
      · have hc : count = 1 := by omega
        subst hc
        rw [if_pos hc1, if_pos (le_refl (1 : Int))]
        simp
      · rw [if_neg hc1, z_iter_aux_eq alist T (count - 1)]
        by_cases h1 : 1 ≤ count
        · have h2 : 1 ≤ count - 1 := by omega
          rw [if_pos h2, if_pos h1]
          have h3 : count.toNat = (count - 1).toNat + 1 := by omega
          rw [h3, List.take_succ_cons]
        · have h2 : ¬ 1 ≤ count - 1 := by omega
          rw [if_neg h2, if_neg h1]
    · rw [if_neg hm, List.filter_cons_of_neg (by simpa using hm),
        z_iter_aux_eq alist T count]

/-- Characterisation: `z_sort` is the preorder traversal filtered to members of the input,
truncated at the input's length. -/
theorem z_sort_eq (root : Node) (alist : List Node) :
    z_sort root alist =
      ((iter root).filter (fun e => decide (e ∈ alist))).take alist.length := by
  unfold z_sort z_iter
  rw [z_iter_aux_eq]
  rcases alist with _ | ⟨a, l⟩
  · simp
  · have h1 : 1 ≤ ((a :: l).length : Int) := by
      simp only [List.length_cons]
      omega
    rw [if_pos h1]
    congr 1

theorem z_sort_subset (root : Node) (alist : List Node) :
    ∀ x ∈ z_sort root alist, x ∈ alist := by
  intro x hx
  rw [z_sort_eq] at hx
  have hx' := List.take_subset _ _ hx
  simpa using (List.mem_filter.mp hx').2

theorem z_sort_mem_iter (root : Node) (alist : List Node) :
    ∀ x ∈ z_sort root alist, x ∈ iter root := by
  intro x hx
  rw [z_sort_eq] at hx
  exact List.mem_of_mem_filter (List.take_subset _ _ hx)

theorem z_sort_sublist_iter (root : Node) (alist : List Node) :
    (z_sort root alist).Sublist (iter root) := by
  rw [z_sort_eq]
  exact (List.take_sublist _ _).trans (List.filter_sublist _)

/-- Ordering an already-ordered list yields the same list. -/
theorem z_sort_idem (root : Node) (S : List Node) :
    z_sort root (z_sort root S) = z_sort root S := by
  rw [z_sort_eq root (z_sort root S)]
  set T := iter root with hT
  set L := z_sort root S with hL
  have hmem : ∀ x ∈ L, x ∈ S := z_sort_subset root S
  have h2 : L = (T.filter (fun e => decide (e ∈ S))).take S.length := by
    rw [hL, z_sort_eq, hT]
  set F := T.filter (fun e => decide (e ∈ S)) with hF
  have h1 : T.filter (fun e => decide (e ∈ L)) =
      F.filter (fun e => decide (e ∈ L)) := by
    rw [hF, List.filter_filter]
    apply List.filter_congr
    intro x _
    by_cases hx : x ∈ L
    · simp [hx, hmem x hx]
    · simp [hx]
  have h3 : (F.take S.length).filter (fun e => decide (e ∈ L)) = L := by
    rw [← h2, List.filter_eq_self]
    intro a ha
    simpa using ha
  have h5 : T.filter (fun e => decide (e ∈ L)) =
      L ++ (F.drop S.length).filter (fun e => decide (e ∈ L)) := by
    rw [h1]
    conv_lhs => rw [← List.take_append_drop S.length F]
    rw [List.filter_append, h3]
  rw [h5, List.take_left]

/-- Without duplicates in the document, `z_sort` yields no duplicates. -/
theorem z_sort_nodup (root : Node) (h : (iter root).Nodup) (alist : List Node) :
    (z_sort root alist).Nodup :=
  (z_sort_sublist_iter root alist).nodup h

/- Structure of the preorder traversal: a node list is a sublist of its own
traversal, and the traversal of a member contains its children. -/

theorem sublist_iterList : ∀ l : List Node, l.Sublist (iterList l)
  | [] => List.Sublist.refl []
  | o :: rest => by
    rw [iterList]
    rcases o with ⟨i, k, ch⟩
    rw [iter, List.cons_append]
    exact (sublist_iterList rest).trans (List.sublist_append_right _ _) |>.cons₂ _

mutual
theorem iter_infix_of_mem : ∀ (n x : Node), x ∈ iter n → (iter x).IsInfix (iter n)
  | .mk i k ch, x, hx => by
    rw [iter] at hx ⊢
    rcases List.mem_cons.mp hx with h | h
    · subst h
      rw [iter]
    · exact (iterList_infix_of_mem ch x h).trans
        ((List.suffix_cons _ _).isInfix)

theorem iterList_infix_of_mem :
    ∀ (l : List Node) (x : Node), x ∈ iterList l → (iter x).IsInfix (iterList l)
  | o :: rest, x, hx => by
    rw [iterList] at hx ⊢
    rcases List.mem_append.mp hx with h | h
    · exact (iter_infix_of_mem o x h).trans (List.prefix_append _ _).isInfix
    · exact (iterList_infix_of_mem rest x h).trans (List.suffix_append _ _).isInfix
end

theorem children_sublist_iter {root o : Node} (h : o ∈ iter root) :
    (Node.children o).Sublist (iter root) := by
  have h1 : (Node.children o).Sublist (iter o) := by
    rcases o with ⟨i, k, ch⟩
    rw [iter, Node.children]
    exact (sublist_iterList ch).trans (List.sublist_cons_self _ _)
  exact h1.trans (iter_infix_of_mem root o h).sublist

/-- On a duplicate-free document, filtering the traversal by membership in a
sub-traversal gives back exactly that sub-traversal. -/
theorem filter_mem_of_sublist :
    ∀ {l T : List Node}, l.Sublist T → T.Nodup →
      T.filter (fun e => decide (e ∈ l)) = l := by
  intro l T hs
  induction hs with
  | slnil => intro _; rfl
  | cons a hs ih =>
    rename_i l₁ l₂
    intro hn
    have ha : a ∉ l₁ := fun hal => (List.nodup_cons.mp hn).1 (hs.subset hal)
    rw [List.filter_cons_of_neg (by simpa using ha)]
    exact ih (List.nodup_cons.mp hn).2
  | cons₂ a hs ih =>
    rename_i l₁ l₂
    intro hn
    rw [List.filter_cons_of_pos (by simp)]
    have ha : a ∉ l₂ := (List.nodup_cons.mp hn).1
    have hcongr : l₂.filter (fun e => decide (e ∈ a :: l₁)) =
        l₂.filter (fun e => decide (e ∈ l₁)) := by
      apply List.filter_congr
      intro x hx
      have hxa : x ≠ a := fun hh => ha (hh ▸ hx)
      simp [List.mem_cons, hxa]
    rw [hcongr, ih (List.nodup_cons.mp hn).2]

/-- Identity case: `z_sort` is the identity on a document-ordered duplicate-free list. -/
theorem z_sort_of_sublist {root : Node} {l : List Node}
    (hs : l.Sublist (iter root)) (hn : (iter root).Nodup) :
    z_sort root l = l := by
  rw [z_sort_eq, filter_mem_of_sublist hs hn, List.take_length]

/- Facts about the candidate loop, the index selector and the recursion
loop of `recurse`. -/

theorem partitionStep_subset {t : String} {imm : Bool} :
    ∀ {l mt tr : List Node}, partitionStep t imm l = .ok (mt, tr) →
      (∀ x ∈ mt, x ∈ l) ∧ (∀ x ∈ tr, x ∈ l) := by
  intro l
  induction l with
  | nil =>
    intro mt tr h
    rw [partitionStep] at h
    cases h
    exact ⟨fun x hx => absurd hx (List.not_mem_nil x),
      fun x hx => absurd hx (List.not_mem_nil x)⟩
  | cons o rest ih =>
    intro mt tr h
    rw [partitionStep] at h
    cases hb : matchOne t o with
    | error e => rw [hb] at h; cases h
    | ok b =>
      rw [hb] at h
      cases hp : partitionStep t imm rest with
      | error e => rw [hp] at h; cases h
      | ok p =>
        obtain ⟨mt', tr'⟩ := p
        rw [hp] at h
        cases h
        obtain ⟨h1, h2⟩ := ih hp
        constructor
        · intro x hx
          split at hx
          · rcases List.mem_cons.mp hx with h | h
            · exact h ▸ List.mem_cons_self o rest
            · exact List.mem_cons_of_mem o (h1 x h)
          · exact List.mem_cons_of_mem o (h1 x hx)
        · intro x hx
          split at hx
          · exact List.mem_cons_of_mem o (h2 x hx)
          · rcases List.mem_cons.mp hx with h | h
            · exact h ▸ List.mem_cons_self o rest
            · exact List.mem_cons_of_mem o (h2 x h)

theorem partitionStep_imm_tr {t : String} :
    ∀ {l mt tr : List Node}, partitionStep t true l = .ok (mt, tr) → tr = [] := by
  intro l
  induction l with
  | nil =>
    intro mt tr h
    rw [partitionStep] at h
    cases h
    rfl
  | cons o rest ih =>
    intro mt tr h
    rw [partitionStep] at h
    cases hb : matchOne t o with
    | error e => rw [hb] at h; cases h
    | ok b =>
      rw [hb] at h
      cases hp : partitionStep t true rest with
      | error e => rw [hp] at h; cases h
      | ok p =>
        obtain ⟨mt', tr'⟩ := p
        rw [hp] at h
        cases h
        simpa using ih hp

/-- A wildcard Descendant step matches every candidate and queues every
candidate for recursion. -/
theorem partitionStep_wild_desc :
    ∀ l : List Node, partitionStep "*" false l = .ok (l, l)
  | [] => rfl
  | o :: rest => by
    rw [partitionStep, partitionStep_wild_desc rest]
    rfl

theorem sliceGather_subset (l : List Node) :
    ∀ (fuel : Nat) (i stop step : Int), ∀ x ∈ sliceGather l fuel i stop step, x ∈ l
  | 0, i, stop, step => by
    intro x hx
    rw [sliceGather] at hx
    cases hx
  | fuel + 1, i, stop, step => by
    intro x hx
    rw [sliceGather] at hx
    split at hx
    · rcases List.mem_append.mp hx with h | h
      · cases hg : l.get? i.toNat <;> rw [hg] at h
        · cases h
        · rw [List.mem_singleton] at h
          exact h ▸ List.get?_mem hg
      · exact sliceGather_subset l fuel _ _ _ x h
    · cases hx

theorem pySlice_subset {l : List Node} {a b c : Option Int} :
    ∀ x ∈ pySlice l a b c, x ∈ l := by
  intro x hx
  rw [pySlice] at hx
  split at hx
  · cases hx
  · exact sliceGather_subset l _ _ _ _ x hx

theorem applyIndex_subset {thisN : Option NBody} {mt ms : List Node}
    {w : List String} (h : applyIndex thisN mt = .ok (ms, w)) :
    ∀ x ∈ ms, x ∈ mt := by
  intro x hx
  cases thisN with
  | none =>
    rw [applyIndex] at h
    cases h
    exact hx
  | some nb =>
    cases nb with
    | int i =>
      rw [applyIndex] at h
      split at h
      · cases h; cases hx
      · cases hg : mt.get? (if i < 0 then i + mt.length else i).toNat <;>
          rw [hg] at h <;> cases h
        · cases hx
        · rw [List.mem_singleton] at hx
          exact hx ▸ List.get?_mem hg
    | parts parts =>
      rw [applyIndex] at h
      cases hp : parts.get? 1 with
      | none => rw [hp] at h; cases h
      | some q =>
        cases q with
        | none => rw [hp] at h; cases h
        | some stop =>
          rw [hp] at h
          by_cases hs0 : (parts.get? 2).join = some 0
          · rw [if_pos hs0] at h
            cases h
          · rw [if_neg hs0] at h
            cases h
            exact pySlice_subset x hx

/- The recursion loop. -/

theorem recList_skip {f : Node → Option RRes} {o : Node} (l : List Node)
    (h : is_iterable o = false) : recList f (o :: l) = recList f l := by
  rw [recList, h]
  rfl

theorem recList_congr {f g : Node → Option RRes} (h : ∀ o, f o = g o) :
    ∀ l : List Node, recList f l = recList g l
  | [] => rfl
  | o :: rest => by
    rw [recList, recList, h o, recList_congr h rest]

theorem recList_mono {f g : Node → Option RRes}
    (h : ∀ o r, f o = some r → g o = some r) :
    ∀ (l : List Node) (r : RRes), recList f l = some r → recList g l = some r
  | [], r, hr => hr
  | o :: rest, r, hr => by
    rw [recList] at hr ⊢
    by_cases hit : is_iterable o
    · rw [if_pos hit] at hr ⊢
      cases hf : f o <;> rw [hf] at hr
      · cases hr
      · rename_i res
        rw [h o res hf]
        cases res with
        | error e => exact hr
        | ok p =>
          obtain ⟨o1, w1⟩ := p
          cases hrl : recList f rest <;> rw [hrl] at hr
          · cases hr
          · rename_i res2
            rw [recList_mono h rest res2 hrl]
            exact hr
    · rw [if_neg hit] at hr ⊢
      exact recList_mono h rest r hr

theorem recList_isSome {f : Node → Option RRes} :
    ∀ l : List Node, (∀ o ∈ l, is_iterable o = true → (f o).isSome) →
      (recList f l).isSome
  | [], _ => by rw [recList]; rfl
  | o :: rest, h => by
    rw [recList]
    by_cases hit : is_iterable o
    · rw [if_pos hit]
      cases hf : f o with
      | none =>
        have h1 := h o (List.mem_cons_self o rest) hit
        rw [hf] at h1
        cases h1
      | some res =>
        cases res with
        | error e => rfl
        | ok p =>
          obtain ⟨o1, w1⟩ := p
          have h2 := recList_isSome rest
            (fun o' ho' => h o' (List.mem_cons_of_mem o ho'))
          cases hrl : recList f rest with
          | none => rw [hrl] at h2; cases h2
          | some res2 => cases res2 <;> rfl
    · rw [if_neg hit]
      exact recList_isSome rest (fun o' ho' => h o' (List.mem_cons_of_mem o ho'))

/- The step evaluator: recursion-depth bounds and monotonicity in the fuel. -/

theorem recStep_succ (root : Node) (fuel : Nat) (objects : List Node)
    (cur : List Char) :
    recStep root (fuel + 1) objects cur =
      recBody root (recStep root fuel) objects cur := rfl

theorem recBody_mono {root : Node}
    {recur recur' : List Node → List Char → Option RRes}
    (hmono : ∀ ch xp r, recur ch xp = some r → recur' ch xp = some r) :
    ∀ (objects : List Node) (cur : List Char) (r : RRes),
      recBody root recur objects cur = some r →
      recBody root recur' objects cur = some r := by
  intro objects cur r h
  unfold recBody at h ⊢
  cases hscan : scanStep cur with
  | none => rw [hscan] at h; exact h
  | some st =>
    obtain ⟨desc, t, n, rest⟩ := st
    rw [hscan] at h
    dsimp only at h ⊢
    cases hconv : convN n with
    | error e => rw [hconv] at h; exact h
    | ok thisN =>
      rw [hconv] at h
      dsimp only at h ⊢
      cases hpart : partitionStep t (!desc) (z_sort root objects) with
      | error e => rw [hpart] at h; exact h
      | ok p =>
        obtain ⟨mt, tr0⟩ := p
        rw [hpart] at h
        dsimp only at h ⊢
        cases happ : applyIndex thisN mt with
        | error e => rw [happ] at h; exact h
        | ok q =>
          obtain ⟨ms, w⟩ := q
          rw [happ] at h
          dsimp only at h ⊢
          cases hrl : recList
              (fun o => recur o.children (if !desc then rest else cur))
              (if !desc then (if rest = [] then tr0 else tr0 ++ ms) else tr0) with
          | none => rw [hrl] at h; cases h
          | some res =>
            rw [hrl] at h
            have hrl' := recList_mono
              (fun o r' hh => hmono o.children _ r' hh) _ res hrl
            rw [hrl']
            exact h

theorem recBody_isSome {root : Node}
    {recur : List Node → List Char → Option RRes}
    (objects : List Node) (cur : List Char)
    (h : ∀ o, o ∈ objects → is_iterable o = true →
      ∀ xp, (recur o.children xp).isSome) :
    (recBody root recur objects cur).isSome := by
  unfold recBody
  cases hscan : scanStep cur with
  | none => rfl
  | some st =>
    obtain ⟨desc, t, n, rest⟩ := st
    dsimp only
    cases hconv : convN n with
    | error e => rfl
    | ok thisN =>
      dsimp only
      cases hpart : partitionStep t (!desc) (z_sort root objects) with
      | error e => rfl
      | ok p =>
        obtain ⟨mt, tr0⟩ := p
        dsimp only
        cases happ : applyIndex thisN mt with
        | error e => rfl
        | ok q =>
          obtain ⟨ms, w⟩ := q
          dsimp only
          have hsub : ∀ x,
              x ∈ (if !desc then (if rest = [] then tr0 else tr0 ++ ms)
                else tr0) → x ∈ objects := by
            have hmt := (partitionStep_subset hpart).1
            have htr := (partitionStep_subset hpart).2
            have hms := applyIndex_subset happ
            have hobs := z_sort_subset root objects
            intro x hx
            cases desc with
            | true =>
              simp only [Bool.not_true] at hx
              simp only [show ((false : Bool) = true) = False by simp] at hx
              rw [if_neg (fun hh => hh)] at hx
              exact hobs x (htr x hx)
            | false =>
              simp only [Bool.not_false, if_pos rfl] at hx
              by_cases hrest : rest = []
              · rw [if_pos hrest] at hx
                exact hobs x (htr x hx)
              · rw [if_neg hrest] at hx
                rcases List.mem_append.mp hx with hcase | hcase
                · exact hobs x (htr x hcase)
                · exact hobs x (hmt x (hms x hcase))
          have hr := recList_isSome
            (f := fun o => recur o.children (if !desc then rest else cur)) _
            (fun o ho hio => h o (hsub o ho) hio _)
          cases hrl : recList
              (fun o => recur o.children (if !desc then rest else cur))
              (if !desc then (if rest = [] then tr0 else tr0 ++ ms) else tr0) with
          | none => rw [hrl] at hr; cases hr
          | some res =>
            cases res with
            | error e => rfl
            | ok p2 => obtain ⟨o2, w2⟩ := p2; rfl

theorem recStep_mono (root : Node) :
    ∀ (fuel : Nat) (objects : List Node) (cur : List Char) (r : RRes),
      recStep root fuel objects cur = some r →
      recStep root (fuel + 1) objects cur = some r
  | 0, _, _, _, h => by rw [recStep] at h; cases h
  | fuel + 1, objects, cur, r, h => by
    rw [recStep_succ] at h ⊢
    exact recBody_mono
      (fun ch xp r' hh => recStep_mono root fuel ch xp r' hh) objects cur r h

theorem recStep_le (root : Node) {fuel fuel' : Nat} (hle : fuel ≤ fuel') :
    ∀ {objects : List Node} {cur : List Char} {r : RRes},
      recStep root fuel objects cur = some r →
      recStep root fuel' objects cur = some r := by
  induction hle with
  | refl => exact fun h => h
  | step _ ih => exact fun h => recStep_mono root _ _ _ _ (ih h)

theorem Node.height_pos (o : Node) : 0 < o.height := by
  cases o
  rw [Node.height]
  omega

theorem height_le_of_mem : ∀ {l : List Node} {o : Node},
    o ∈ l → o.height ≤ heightList l := by
  intro l
  induction l with
  | nil => intro o h; cases h
  | cons a rest ih =>
    intro o h
    rw [heightList]
    rcases List.mem_cons.mp h with h | h
    · exact h ▸ le_max_left _ _
    · exact (ih h).trans (le_max_right _ _)

theorem heightList_children_lt (o : Node) :
    heightList (Node.children o) < o.height := by
  cases o
  rw [Node.height, Node.children]
  omega

/-- With fuel exceeding the height of the candidate forest, evaluation
finishes. -/
theorem recStep_isSome (root : Node) :
    ∀ (fuel : Nat) (objects : List Node) (cur : List Char),
      heightList objects < fuel → (recStep root fuel objects cur).isSome
  | 0, objects, cur, hh => absurd hh (Nat.not_lt_zero _)
  | fuel + 1, objects, cur, hh => by
    rw [recStep_succ]
    apply recBody_isSome
    intro o ho _ xp
    apply recStep_isSome root fuel o.children xp
    have h1 : o.height ≤ heightList objects := height_le_of_mem ho
    have h2 := heightList_children_lt o
    omega

/-- Stability: `findFuel` at any sufficient fuel agrees with `find` and succeeds. -/
theorem findFuel_stable (root : Node) (arg : FindArg) (xpath : String)
    {fuel : Nat} (h : 1 + heightList (candidatesOf root arg) ≤ fuel) :
    findFuel root arg xpath fuel = find root arg xpath ∧
      (findFuel root arg xpath fuel).isSome := by
  have h1 := recStep_isSome root (1 + heightList (candidatesOf root arg))
    (candidatesOf root arg) xpath.data (by omega)
  obtain ⟨r, hr⟩ := Option.isSome_iff_exists.mp h1
  have h2 : findFuel root arg xpath fuel = some r := recStep_le root h hr
  have h3 : find root arg xpath = some r := hr
  rw [h2, h3]
  exact ⟨rfl, rfl⟩

/-- The step-list shape of an all-Immediate expression: `k` scanner steps,
each with the Immediate axis, ending in an empty remainder. -/
inductive ImmSteps : List Char → Nat → Prop
  | done : ImmSteps [] 0
  | step {c : List Char} {t n : String} {rest : List Char} {k : Nat} :
      scanStep c = some (false, t, n, rest) → ImmSteps rest k →
      ImmSteps c (k + 1)

theorem ImmSteps.zero_nil {c : List Char} (h : ImmSteps c 0) : c = [] := by
  cases h
  rfl

/-- For an all-Immediate expression, fuel equal to the number of steps
suffices: the recursion depth is bounded by the step-list length. -/
theorem recStep_isSome_imm (root : Node) {xp : List Char} {k : Nat}
    (h : ImmSteps xp k) :
    ∀ (objects : List Node) (fuel : Nat), 0 < k → k ≤ fuel →
      (recStep root fuel objects xp).isSome := by
  induction h with
  | done => intro _ _ h0 _; exact absurd h0 (lt_irrefl 0)
  | step hscan hrest ih =>
    rename_i c t n rest k
    intro objects fuel _ hk
    obtain ⟨f, rfl⟩ : ∃ f, fuel = f + 1 := ⟨fuel - 1, by omega⟩
    rw [recStep_succ]
    unfold recBody
    rw [hscan]
    dsimp only
    simp only [Bool.not_false, eq_self_iff_true, if_true]
    cases hconv : convN n with
    | error e => rfl
    | ok thisN =>
      dsimp only
      cases hpart : partitionStep t true (z_sort root objects) with
      | error e => rfl
      | ok p =>
        obtain ⟨mt, tr0⟩ := p
        dsimp only
        cases happ : applyIndex thisN mt with
        | error e => rfl
        | ok q =>
          obtain ⟨ms, w⟩ := q
          dsimp only
          have htr0 : tr0 = [] := partitionStep_imm_tr hpart
          subst htr0
          by_cases hrest0 : rest = []
          · rw [if_pos hrest0]
            rfl
          · rw [if_neg hrest0]
            have hk0 : 0 < k := by
              rcases Nat.eq_zero_or_pos k with hz | hp
              · subst hz
                exact absurd hrest.zero_nil hrest0
              · exact hp
            have hsome := recList_isSome
              (f := fun o => recStep root f o.children rest)
              ([] ++ ms)
              (fun o _ _ => ih o.children f hk0 (by omega))
            cases hrl : recList (fun o => recStep root f o.children rest)
                ([] ++ ms) with
            | none => rw [hrl] at hsome; cases hsome
            | some res =>
              cases res with
              | error e => rfl
              | ok p2 => obtain ⟨o2, w2⟩ := p2; rfl

/-- On a Descendant step everything after the first step of the xpath is
dead: evaluation only looks at the parsed axis, type and index, and each
recursive call reuses the whole unparsed xpath. -/
theorem recStep_desc_rest (root : Node) :
    ∀ (fuel : Nat) (objects : List Node) (c1 c2 : List Char) (t n : String)
      (r1 r2 : List Char),
      scanStep c1 = some (true, t, n, r1) →
      scanStep c2 = some (true, t, n, r2) →
      recStep root fuel objects c1 = recStep root fuel objects c2 := by
  intro fuel
  induction fuel with
  | zero => intro _ _ _ _ _ _ _ _ _; rfl
  | succ f ih =>
    intro objects c1 c2 t n r1 r2 h1 h2
    rw [recStep_succ, recStep_succ]
    unfold recBody
    rw [h1, h2]
    dsimp only
    simp only [Bool.not_true, Bool.false_eq_true, if_false]
    cases convN n with
    | error e => rfl
    | ok thisN =>
      dsimp only
      cases partitionStep t false (z_sort root objects) with
      | error e => rfl
      | ok p =>
        obtain ⟨mt, tr0⟩ := p
        dsimp only
        cases applyIndex thisN mt with
        | error e => rfl
        | ok q =>
          obtain ⟨ms, w⟩ := q
          dsimp only
          rw [recList_congr
            (fun o => ih o.children c1 c2 t n r1 r2 h1 h2) tr0]

/- Closed form of the wildcard Descendant query `//*`. -/

mutual
/-- Contribution of one recursion target of the `//*` query: a container
contributes its children's whole evaluation, a leaf nothing. -/
def wildSub : Node → List Node
  | .mk i k ch =>
    if is_iterable (.mk i k ch) then ch ++ wildBlocks ch else []

/-- The recursive blocks of the `//*` query, one per candidate in order. -/
def wildBlocks : List Node → List Node
  | [] => []
  | o :: rest => wildSub o ++ wildBlocks rest
end

/-- Output of `recurse` on a candidate list for the `//*` query: the whole
level first, then each container's subtree block. -/
def wildOut (l : List Node) : List Node :=
  l ++ wildBlocks l

theorem wildSub_eq (o : Node) :
    wildSub o =
      if is_iterable o then o.children ++ wildBlocks o.children else [] := by
  cases o
  rw [wildSub, Node.children]

theorem recList_blocks {f : Node → Option RRes} :
    ∀ {l : List Node},
      (∀ o ∈ l, is_iterable o = true →
        f o = some (.ok (o.children ++ wildBlocks o.children, []))) →
      recList f l = some (.ok (wildBlocks l, []))
  | [], _ => rfl
  | o :: rest, hf => by
    rw [recList, wildBlocks]
    by_cases hit : is_iterable o
    · rw [if_pos hit, hf o (List.mem_cons_self o rest) hit,
        recList_blocks (fun o' ho' => hf o' (List.mem_cons_of_mem o ho'))]
      rw [wildSub_eq, if_pos hit]
      rfl
    · rw [if_neg hit,
        recList_blocks (fun o' ho' => hf o' (List.mem_cons_of_mem o ho'))]
      rw [wildSub_eq, if_neg hit, List.nil_append]

theorem self_mem_iter (n : Node) : n ∈ iter n := by
  cases n
  rw [iter]
  exact List.mem_cons_self _ _

/-- Evaluation of the `//*` step on a document-ordered duplicate-free
candidate list: the candidates themselves, then each container's block. -/
theorem recStep_wild (root : Node) (hn : (iter root).Nodup) :
    ∀ (fuel : Nat) (objects : List Node),
      objects.Sublist (iter root) → heightList objects < fuel →
      recStep root fuel objects ['/', '/', '*'] =
        some (.ok (wildOut objects, []))
  | 0, objects, _, hh => absurd hh (Nat.not_lt_zero _)
  | fuel + 1, objects, hs, hh => by
    rw [recStep_succ]
    unfold recBody
    rw [show scanStep ['/', '/', '*'] =
      some (true, "*", "", []) from rfl]
    dsimp only
    simp only [Bool.not_true, Bool.false_eq_true, if_false]
    rw [show convN "" = (.ok none : Except QErr (Option NBody)) from rfl]
    dsimp only
    rw [z_sort_of_sublist hs hn, partitionStep_wild_desc objects]
    dsimp only
    have hlist : recList
        (fun o => recStep root fuel o.children ['/', '/', '*']) objects =
        some (.ok (wildBlocks objects, [])) := by
      apply recList_blocks
      intro o ho hit
      have ho' : o ∈ iter root := hs.subset ho
      have hsub : (Node.children o).Sublist (iter root) :=
        children_sublist_iter ho'
      have hhh : heightList (Node.children o) < fuel := by
        have h1 : o.height ≤ heightList objects := height_le_of_mem ho
        have h2 := heightList_children_lt o
        omega
      rw [recStep_wild root hn fuel o.children hsub hhh]
      rfl
    rw [hlist,
      show applyIndex none objects =
        (.ok (objects, []) : Except QErr (List Node × List String)) from rfl]
    rfl

/-- Reachability from a candidate list: a member, or reachable from the
children of a member container. -/
inductive Reach : List Node → Node → Prop
  | here {l : List Node} {x : Node} : x ∈ l → Reach l x
  | deeper {l : List Node} {o x : Node} :
      o ∈ l → is_iterable o = true → Reach o.children x → Reach l x

theorem Node.sizeOf_children_lt (o : Node) : sizeOf o.children < sizeOf o := by
  cases o with
  | mk i k ch =>
    rw [Node.children]
    simp only [Node.mk.sizeOf_spec]
    omega

theorem mem_wildBlocks {l : List Node} {x : Node} :
    x ∈ wildBlocks l ↔
      ∃ o, o ∈ l ∧ is_iterable o = true ∧ x ∈ wildOut o.children := by
  induction l with
  | nil =>
    rw [wildBlocks]
    simp
  | cons o rest ih =>
    rw [wildBlocks, List.mem_append, ih, wildSub_eq]
    constructor
    · rintro (hx | ⟨o', ho', hio', hxo'⟩)
      · by_cases hit : is_iterable o
        · rw [if_pos hit] at hx
          exact ⟨o, List.mem_cons_self o rest, hit, hx⟩
        · rw [if_neg hit] at hx
          cases hx
      · exact ⟨o', List.mem_cons_of_mem o ho', hio', hxo'⟩
    · rintro ⟨o', ho', hio', hxo'⟩
      rcases List.mem_cons.mp ho' with h | h
      · subst h
        rw [if_pos hio']
        exact Or.inl hxo'
      · exact Or.inr ⟨o', h, hio', hxo'⟩

theorem mem_wildOut_reach : ∀ (l : List Node) (x : Node),
    x ∈ wildOut l → Reach l x
  | l, x, hx => by
    rw [wildOut] at hx
    rcases List.mem_append.mp hx with h | h
    · exact Reach.here h
    · obtain ⟨o, ho, hio, hxo⟩ := mem_wildBlocks.mp h
      exact Reach.deeper ho hio (mem_wildOut_reach o.children x hxo)
termination_by l => sizeOf l
decreasing_by
  have h1 := List.sizeOf_lt_of_mem ho
  have h2 := Node.sizeOf_children_lt o
  omega

theorem reach_mem_wildOut {l : List Node} {x : Node} (h : Reach l x) :
    x ∈ wildOut l := by
  induction h with
  | here hx => exact List.mem_append.mpr (Or.inl hx)
  | deeper ho hio _ ih =>
    exact List.mem_append.mpr (Or.inr (mem_wildBlocks.mpr ⟨_, ho, hio, ih⟩))

/-- The non-bookkeeping top-level candidate set of the document. -/
def topsOf (root : Node) : List Node :=
  root.children.filter (fun c => !is_meta c)

theorem topsOf_sublist (root : Node) : (topsOf root).Sublist (iter root) :=
  (List.filter_sublist _).trans (children_sublist_iter (self_mem_iter root))

/-- Closed form of `find(root, '//*')`. -/
theorem find_wild_desc (root : Node) (hn : (iter root).Nodup) :
    find root .svgRoot "//*" = some (.ok (wildOut (topsOf root), [])) := by
  unfold find findFuel
  have hc : candidatesOf root .svgRoot = topsOf root := rfl
  rw [hc]
  rw [show ("//*" : String).data = ['/', '/', '*'] from rfl]
  exact recStep_wild root hn _ (topsOf root) (topsOf_sublist root) (by omega)

/- The error and warning behaviour of an evaluated step. -/

theorem partitionStep_unknown {t : String} (hstar : t ≠ "*")
    (htab : tag_dict.lookup t = none) (imm : Bool) (o : Node)
    (os : List Node) :
    partitionStep t imm (o :: os) = .error (.unknownType t) := by
  rw [partitionStep,
    show matchOne t o = .error (.unknownType t) from by
      unfold matchOne
      rw [if_neg hstar, htab]]

/-- An Immediate step with an out-of-range integer index recovers: the step
contributes an empty match plus the recorded warning, and the query returns
normally. -/
theorem recStep_index_oor (root : Node) (fuel : Nat) (objects : List Node)
    {xp rest : List Char} {t n : String} {i : Int} {mt tr : List Node}
    (hscan : scanStep xp = some (false, t, n, rest))
    (hconv : convN n = .ok (some (.int i)))
    (hpart : partitionStep t true (z_sort root objects) = .ok (mt, tr))
    (hoor : i < -(mt.length : Int) ∨ (mt.length : Int) ≤ i) :
    recStep root (fuel + 1) objects xp =
      some (.ok ([], ["WARN: list index out of range"])) := by
  rw [recStep_succ]
  unfold recBody
  rw [hscan]
  dsimp only
  simp only [Bool.not_false, eq_self_iff_true, if_true]
  rw [hconv]
  dsimp only
  rw [hpart]
  dsimp only
  rw [show applyIndex (some (.int i)) mt =
      (.ok ([], ["WARN: list index out of range"]) :
        Except QErr (List Node × List String)) from by
    unfold applyIndex
    dsimp only
    rw [if_pos hoor]]
  dsimp only
  have htr : tr = [] := partitionStep_imm_tr hpart
  subst htr
  by_cases hrest : rest = []
  · subst hrest
    rfl
  · simp only [if_neg hrest]
    rfl

/-- An evaluated step whose type code is missing from the alias table aborts
the whole query with the unknown-type error, provided the candidate loop
sees at least one object. -/
theorem recStep_unknown_type (root : Node) (fuel : Nat) (objects : List Node)
    {xp rest : List Char} {desc : Bool} {t n : String} {thisN : Option NBody}
    {o : Node} {os : List Node}
    (hscan : scanStep xp = some (desc, t, n, rest))
    (hconv : convN n = .ok thisN)
    (hstar : t ≠ "*")
    (htab : tag_dict.lookup t = none)
    (hz : z_sort root objects = o :: os) :
    recStep root (fuel + 1) objects xp = some (.error (.unknownType t)) := by
  rw [recStep_succ]
  unfold recBody
  rw [hscan]
  dsimp only
  rw [hconv]
  dsimp only
  rw [hz, partitionStep_unknown hstar htab (!desc) o os]

/-- An evaluated step carrying a slice without a stop bound aborts the whole
query with the unsupported-slice error. -/
theorem recStep_slice_no_stop (root : Node) (fuel : Nat) (objects : List Node)
    {xp rest : List Char} {desc : Bool} {t n : String}
    {parts : List (Option Int)} {mt tr : List Node}
    (hscan : scanStep xp = some (desc, t, n, rest))
    (hconv : convN n = .ok (some (.parts parts)))
    (hstop : parts.get? 1 = some none)
    (hpart : partitionStep t (!desc) (z_sort root objects) = .ok (mt, tr)) :
    recStep root (fuel + 1) objects xp = some (.error .sliceStopMissing) := by
  rw [recStep_succ]
  unfold recBody
  rw [hscan]
  dsimp only
  rw [hconv]
  dsimp only
  rw [hpart]
  dsimp only
  rw [show applyIndex (some (.parts parts)) mt =
      (.error .sliceStopMissing : Except QErr (List Node × List String)) from by
    unfold applyIndex
    dsimp only
    rw [hstop]]

end Ink


namespace Ink

/- Sample documents used by the concrete parts of the claims. -/

def sampP1 : Node := .mk 2 "PathElement" []

def sampP2 : Node := .mk 3 "PathElement" []

def sampG : Node := .mk 1 "Group" [sampP1]

def sampRoot : Node := .mk 0 "SvgDocumentElement" [sampG, sampP2]

def dNested : Node := .mk 12 "Defs" []

def dTop : Node := .mk 13 "Defs" []

def gDefs : Node := .mk 11 "Group" [dNested]

def metaRoot : Node := .mk 10 "SvgDocumentElement" [gDefs, dTop]

def grp0 : Node := .mk 21 "Group" []

def grp1 : Node := .mk 22 "Group" []

def grp2 : Node := .mk 23 "Group" []

def path3 : Node := .mk 24 "PathElement" []

def parentG : Node := .mk 20 "Group" [grp0, grp1, grp2, path3]

def docQ : Node := .mk 19 "SvgDocumentElement" [parentG]

def pathA : Node := .mk 32 "PathElement" []

def grpA : Node := .mk 31 "Group" [pathA]

def pathB1 : Node := .mk 34 "PathElement" []

def pathB2 : Node := .mk 35 "PathElement" []

def grpB : Node := .mk 33 "Group" [pathB1, pathB2]

def docW : Node := .mk 30 "SvgDocumentElement" [grpA, grpB]

def unreach : Node := .mk 99 "Group" []

/-- C1: the claim as stated fails on the code.  On the document
`root → [g[p1], p2]`, `find(root, '//*')` returns `[g, p2, p1]`, which is
not a subsequence of the preorder traversal restricted to the matched nodes
(that restriction is `[g, p1, p2]`): a Descendant step emits a level's
matches before the recursive results of that level's containers, so neither
the document-order invariant nor the in-document-order wildcard-descendant
property holds. -/
theorem c1_counterexample :
    find sampRoot .svgRoot "//*" = some (.ok ([sampG, sampP2, sampP1], [])) ∧
      ¬ List.Sublist [sampG, sampP2, sampP1]
        ((iter sampRoot).filter
          (fun e => decide (e ∈ [sampG, sampP2, sampP1]))) := by
  constructor
  · decide
  · intro h
    have h1 : [sampG, sampP2, sampP1] =
        (iter sampRoot).filter
          (fun e => decide (e ∈ [sampG, sampP2, sampP1])) :=
      h.eq_of_length (by decide)
    exact absurd h1 (by decide)

/-- C1 (amended): on a duplicate-free document, `query({root}, '//*')`
returns exactly the nodes reachable from the root's non-bookkeeping
top-level children by descending through containers — each recursion level
in document order, with every container's subtree block emitted after that
container's whole level — rather than a subsequence of the full preorder
traversal. -/
theorem c1_wildcard_descendant (root : Node) (hn : (iter root).Nodup) :
    find root .svgRoot "//*" = some (.ok (wildOut (topsOf root), [])) ∧
      ∀ x : Node, x ∈ wildOut (topsOf root) ↔ Reach (topsOf root) x :=
  ⟨find_wild_desc root hn,
    fun x => ⟨mem_wildOut_reach _ x, reach_mem_wildOut⟩⟩

/-- C1 witness: the amended statement evaluated on the sample document. -/
theorem c1_wildcard_descendant_witness :
    find sampRoot .svgRoot "//*" =
      some (.ok (wildOut (topsOf sampRoot), [])) :=
  (c1_wildcard_descendant sampRoot (by decide)).left

/-- C2: document-order reconciliation is idempotent:
`z_sort(z_sort(S)) = z_sort(S)` for every document and every node list. -/
theorem c2_order_idempotent (root : Node) (S : List Node) :
    z_sort root (z_sort root S) = z_sort root S :=
  z_sort_idem root S

/-- C3: for sibling Groups g0, g1, g2 under one parent in that document
order, `/g[0]` returns [g0], `/g[-1]` returns [g2] and `/g[0:2]` returns
[g0, g1]; with a PathElement sibling after the Groups in the candidate set,
`/g[-1]` still returns [g2] — the negative index counts from the end of the
type-filtered match set, not the unfiltered candidate set. -/
theorem c3_sibling_indexing :
    find docQ (.plain [grp0, grp1, grp2]) "/g[0]" =
        some (.ok ([grp0], [])) ∧
      find docQ (.plain [grp0, grp1, grp2]) "/g[-1]" =
        some (.ok ([grp2], [])) ∧
      find docQ (.plain [grp0, grp1, grp2]) "/g[0:2]" =
        some (.ok ([grp0, grp1], [])) ∧
      find docQ (.plain [grp0, grp1, grp2, path3]) "/g[-1]" =
        some (.ok ([grp2], [])) :=
  ⟨by decide, by decide, by decide, by decide⟩

/-- C4: an out-of-range integer index does not fail the query: for any
document, candidate set and Immediate step whose index lies outside the
type-filtered match set, that evaluation returns the empty match plus the
recorded warning (first conjunct); evaluation continues in sibling
recursive branches: `/g/p[1]` warns inside the one-path Group and still
returns the second Group's match (second conjunct). -/
theorem c4_index_out_of_range :
    (∀ (root : Node) (fuel : Nat) (objects : List Node)
      {xp rest : List Char} {t n : String} {i : Int} {mt tr : List Node},
      scanStep xp = some (false, t, n, rest) →
      convN n = .ok (some (.int i)) →
      partitionStep t true (z_sort root objects) = .ok (mt, tr) →
      (i < -(mt.length : Int) ∨ (mt.length : Int) ≤ i) →
      recStep root (fuel + 1) objects xp =
        some (.ok ([], ["WARN: list index out of range"]))) ∧
    find docW (.plain [grpA, grpB]) "/g/p[1]" =
      some (.ok ([pathB2], ["WARN: list index out of range"])) :=
  ⟨recStep_index_oor, by decide⟩

/-- C4 witness: `/g[5]` against the three sibling Groups returns the empty
sequence plus the warning. -/
theorem c4_index_out_of_range_witness :
    recStep docQ 1 [grp0, grp1, grp2] ("/g[5]".data) =
      some (.ok ([], ["WARN: list index out of range"])) :=
  c4_index_out_of_range.left docQ 0 [grp0, grp1, grp2]
    (show scanStep ("/g[5]".data) = some (false, "g", "5", []) by decide)
    (show convN "5" = .ok (some (.int 5)) by decide)
    (show partitionStep "g" true (z_sort docQ [grp0, grp1, grp2]) =
      .ok ([grp0, grp1, grp2], []) by decide)
    (show (5 : Int) < -(([grp0, grp1, grp2] : List Node).length : Int) ∨
      (([grp0, grp1, grp2] : List Node).length : Int) ≤ 5 by decide)

/-- C5: the claim as stated fails on the code: `/p/g[1:]` contains an
open-ended slice, yet evaluated on a Group candidate the `/p` step matches
nothing, the slice step is never parsed, and the query returns an empty
result with no error at all. -/
theorem c5_counterexample :
    find docQ (.plain [grp0]) "/p/g[1:]" = some (.ok ([], [])) := by decide

/-- C5 (amended): a slice selector without a stop bound fails the whole
query with the unsupported-slice error — a condition distinct from the
grammar-failure error — whenever its step is evaluated; in particular an
expression whose first step carries the open-ended slice always fails
(third conjunct), but a step never reached raises nothing. -/
theorem c5_slice_stop_required :
    (∀ (root : Node) (fuel : Nat) (objects : List Node)
      {xp rest : List Char} {desc : Bool} {t n : String}
      {parts : List (Option Int)} {mt tr : List Node},
      scanStep xp = some (desc, t, n, rest) →
      convN n = .ok (some (.parts parts)) →
      parts.get? 1 = some none →
      partitionStep t (!desc) (z_sort root objects) = .ok (mt, tr) →
      recStep root (fuel + 1) objects xp =
        some (.error .sliceStopMissing)) ∧
    (∀ s : List Char, QErr.sliceStopMissing ≠ QErr.grammarFail s) ∧
    find docQ (.plain [grp0]) "/g[1:]" =
      some (.error .sliceStopMissing) :=
  ⟨recStep_slice_no_stop, fun _ h => QErr.noConfusion h, by decide⟩

/-- C5 witness: the open-ended slice `/g[1:]` evaluated against the three
sibling Groups aborts with the unsupported-slice error. -/
theorem c5_slice_stop_required_witness :
    recStep docQ 1 [grp0, grp1, grp2] ("/g[1:]".data) =
      some (.error .sliceStopMissing) :=
  c5_slice_stop_required.1 docQ 0 [grp0, grp1, grp2]
    (show scanStep ("/g[1:]".data) = some (false, "g", "1:", []) by decide)
    (show convN "1:" = .ok (some (.parts [some 1, none])) by decide)
    (show ([some 1, none] : List (Option Int)).get? 1 = some none by decide)
    (show partitionStep "g" (!false) (z_sort docQ [grp0, grp1, grp2]) =
      .ok ([grp0, grp1, grp2], []) by decide)

/-- C6: the claim as stated fails on the code: `/p/z` contains the unknown
type code `z`, yet evaluated on a Group candidate the `/p` step matches
nothing, the `z` step is never evaluated, and the query silently returns an
empty result. -/
theorem c6_counterexample :
    find docQ (.plain [grp0]) "/p/z" = some (.ok ([], [])) := by decide

/-- C6 (amended): a type code outside the alias table aborts the whole
query with the unknown-type error as soon as its step's candidate loop sees
at least one object (first conjunct); issued directly against a non-empty
candidate set, `/z` fails fatally with no partial result (second
conjunct). -/
theorem c6_unknown_type_alias :
    (∀ (root : Node) (fuel : Nat) (objects : List Node)
      {xp rest : List Char} {desc : Bool} {t n : String}
      {thisN : Option NBody} {o : Node} {os : List Node},
      scanStep xp = some (desc, t, n, rest) →
      convN n = .ok thisN →
      t ≠ "*" →
      tag_dict.lookup t = none →
      z_sort root objects = o :: os →
      recStep root (fuel + 1) objects xp =
        some (.error (.unknownType t))) ∧
    find docQ (.plain [grp0]) "/z" = some (.error (.unknownType "z")) :=
  ⟨recStep_unknown_type, by decide⟩

/-- C6 witness: `/z` evaluated against one Group aborts with the
unknown-type error for `z`. -/
theorem c6_unknown_type_alias_witness :
    recStep docQ 1 [grp0] ("/z".data) =
      some (.error (.unknownType "z")) :=
  c6_unknown_type_alias.1 docQ 0 [grp0]
    (show scanStep ("/z".data) = some (false, "z", "", []) by decide)
    (show convN "" = .ok none by decide)
    (show "z" ≠ "*" by decide)
    (show tag_dict.lookup "z" = none by decide)
    (show z_sort docQ [grp0] = grp0 :: [] by decide)

/-- C7: the bookkeeping filter is applied exactly once, to the top-level
candidate set only: the svg-root entry point filters the root's children
once (first conjunct), a plain candidate list is passed through with no
filter (second conjunct), and recursive descent never filters — on
`root → [g[defsNested], defsTop]`, `//*` drops the top-level Defs but
returns the Defs nested inside the Group (third conjunct). -/
theorem c7_meta_filter_top_once :
    (∀ (root : Node) (xpath : String) (fuel : Nat),
      findFuel root .svgRoot xpath fuel =
        recStep root fuel (root.children.filter (fun c => !is_meta c))
          xpath.data) ∧
    (∀ (root : Node) (l : List Node) (xpath : String) (fuel : Nat),
      findFuel root (.plain l) xpath fuel = recStep root fuel l xpath.data) ∧
    find metaRoot .svgRoot "//*" = some (.ok ([gDefs, dNested], [])) :=
  ⟨fun _ _ _ => rfl, fun _ _ _ _ => rfl, by decide⟩

/-- C8: evaluation terminates for every finite document and every
expression: fuel one more than the height of the candidate forest always
suffices and the result is independent of any larger fuel (first conjunct);
for an expression of k Immediate-axis steps, fuel k suffices, so the
recursion depth is bounded by the step-list length (second conjunct); and
recursing into a non-container skips it with an empty contribution, not an
error (third conjunct). -/
theorem c8_termination :
    (∀ (root : Node) (arg : FindArg) (xpath : String) (fuel : Nat),
      1 + heightList (candidatesOf root arg) ≤ fuel →
      findFuel root arg xpath fuel = find root arg xpath ∧
        (findFuel root arg xpath fuel).isSome) ∧
    (∀ (root : Node) {xp : List Char} {k : Nat}, ImmSteps xp k →
      ∀ (objects : List Node) (fuel : Nat), 0 < k → k ≤ fuel →
      (recStep root fuel objects xp).isSome) ∧
    (∀ (f : Node → Option RRes) (o : Node) (l : List Node),
      is_iterable o = false → recList f (o :: l) = recList f l) :=
  ⟨fun root arg xpath _ h => findFuel_stable root arg xpath h,
    recStep_isSome_imm,
    fun _ _ l h => recList_skip l h⟩

/-- C8 witness: a concrete evaluation with generous fuel succeeds. -/
theorem c8_termination_witness :
    (findFuel docQ (.plain [grp0]) "/g" 5).isSome = true :=
  (c8_termination.1 docQ (.plain [grp0]) "/g" 5 (by decide)).2

/-- C9: on a Descendant step the index-filtered matches are emitted at each
depth and every recursive call reuses the same step, so any steps written
after a Descendant step are never evaluated: two xpaths whose first steps
scan to the same Descendant axis, type and index evaluate identically
whatever follows (first conjunct); concretely `//g/p` equals `//g`,
returning the Groups of every depth with the trailing `/p` ignored. -/
theorem c9_descendant_dead_tail :
    (∀ (root : Node) (fuel : Nat) (objects : List Node)
      (c1 c2 : List Char) (t n : String) (r1 r2 : List Char),
      scanStep c1 = some (true, t, n, r1) →
      scanStep c2 = some (true, t, n, r2) →
      recStep root fuel objects c1 = recStep root fuel objects c2) ∧
    find docQ .svgRoot "//g/p" =
      some (.ok ([parentG, grp0, grp1, grp2], [])) ∧
    find docQ .svgRoot "//g" =
      some (.ok ([parentG, grp0, grp1, grp2], [])) :=
  ⟨recStep_desc_rest, by decide, by decide⟩

/-- C9 witness: `//g/p` and `//g` evaluate identically on the sample
document. -/
theorem c9_descendant_dead_tail_witness :
    recStep docQ 3 [parentG] ("//g/p".data) =
      recStep docQ 3 [parentG] ("//g".data) :=
  c9_descendant_dead_tail.1 docQ 3 [parentG] ("//g/p".data) ("//g".data)
    "g" "" ("/p".data) []
    (by decide) (by decide)

/-- C10: on a duplicate-free document, `z_iter` yields each element at most
once even when the input carries duplicates, every yielded element is
reachable from the document root and belongs to the input, and unreachable
input elements are dropped without any error or warning, so the output can
be shorter than the input (concrete conjunct: a duplicated Group plus an
unreachable one collapse to a single element). -/
theorem c10_z_iter_dedup_drops :
    (∀ (root : Node) (S : List Node), (iter root).Nodup →
      (z_iter root S).Nodup ∧
        ∀ x ∈ z_iter root S, x ∈ iter root ∧ x ∈ S) ∧
    z_iter docQ [grp0, grp0, unreach] = [grp0] := by
  constructor
  · intro root S hn
    constructor
    · exact z_sort_nodup root hn S
    · intro x hx
      exact ⟨z_sort_mem_iter root S x hx, z_sort_subset root S x hx⟩
  · decide

/-- C10 witness: the duplicate-and-unreachable input evaluated on the
sample document yields a duplicate-free result. -/
theorem c10_z_iter_dedup_drops_witness :
    (z_iter docQ [grp0, grp0, unreach]).Nodup :=
  (c10_z_iter_dedup_drops.1 docQ [grp0, grp0, unreach] (by decide)).1

end Ink
